import Mathlib

/-!
Verification of the user record store in `src/server/storage.ts`.

The file embeds the two storage implementations, `MemStorage` (volatile,
in-memory) and `FileStorage` (durable, snapshot file on disk), over a
shallow model:

* a JS `Map<string, User>` is modelled as an insertion-ordered association
  list `Store := List (String × User)` with JS `Map` semantics
  (`set` replaces in place or appends, `delete` removes the entry,
  `values()` iterates in insertion order);
* `randomUUID()` is modelled by passing the generated id as an explicit
  argument; its freshness (a probabilistic property of the generator) is a
  hypothesis where a claim needs it;
* the snapshot file is modelled at the JSON-value level: `JSON.stringify`
  and `JSON.parse` (external library code, trusted mutually inverse on
  well-formed text) are elided and the disk holds an optional JSON value
  `Option Jval`; serialization to and decoding from that value follow the
  record shape written by `persist` and read by `load`;
* `fs.writeFile` faults are modelled by a boolean `persistOk` parameter:
  when false, the write rejects and the operation propagates the fault.
-/

/-- The stored record. Modelled from the spec: the `User` type lives in
`@shared/schema`, which is not part of the given sources; per the spec a
Record has `id` (assigned by the store), `username`, and an opaque
`secret` payload (the `password` field used throughout `storage.ts`). -/
structure User where
  username : String
  password : String
  id : String
deriving DecidableEq, Repr

/-- Caller-supplied fields for `createUser`. Modelled from the spec:
`InsertUser` lives in `@shared/schema`; it is the Record minus the
store-assigned `id`. -/
structure InsertUser where
  username : String
  password : String
deriving DecidableEq, Repr

/-- `Partial<InsertUser>`: each field may be absent. A present field
overwrites on merge, an absent one is preserved. -/
structure Patch where
  username? : Option String := none
  password? : Option String := none
deriving DecidableEq, Repr

/-- `{ ...insertUser, id }` — the record built by `createUser`. -/
def mkUser (iu : InsertUser) (id : String) : User :=
  { username := iu.username, password := iu.password, id := id }

/-- `{ ...existing, ...patch }` — the merge performed by `updateUser`:
fields present in the patch overwrite, absent ones are preserved, and the
patch carries no `id` field, so `id` is kept. -/
def mergePatch (u : User) (p : Patch) : User :=
  { username := p.username?.getD u.username
    password := p.password?.getD u.password
    id := u.id }

/-- The in-memory collection: a JS `Map<string, User>` as an
insertion-ordered association list. -/
abbrev Store := List (String × User)

/-- `Map.get(k)`. -/
def mget (m : Store) (k : String) : Option User :=
  (m.find? (fun p => p.1 == k)).map (fun p => p.2)

/-- `Map.set(k, v)`: replace in place if the key is present, else append. -/
def mset (m : Store) (k : String) (v : User) : Store :=
  match m with
  | [] => [(k, v)]
  | (k', v') :: rest =>
    if k' == k then (k, v) :: rest else (k', v') :: mset rest k v

/-- `Map.delete(k)`: remove the entry with key `k` (keys are unique in a
JS `Map`, so removing the first occurrence is exact). -/
def mdelete (m : Store) (k : String) : Store :=
  match m with
  | [] => []
  | (k', v') :: rest =>
    if k' == k then rest else (k', v') :: mdelete rest k

/-- `Array.from(map.values())`, in insertion order. -/
def mvalues (m : Store) : List User := m.map (fun p => p.2)

/-- The keys of the collection. -/
def mkeys (m : Store) : List String := m.map (fun p => p.1)

/-- `new Map(arr.map(u => [u.id, u]))`: insert each record keyed by its
own id, in file order, so later duplicates overwrite earlier ones. -/
def mkMap (arr : List User) : Store :=
  arr.foldl (fun m u => mset m u.id u) []

/-! ### The JSON-value layer of the snapshot file -/

/-- JSON values, restricted to the shapes the snapshot uses: strings,
arrays and objects. -/
inductive Jval where
  | str : String → Jval
  | arr : List Jval → Jval
  | obj : List (String × Jval) → Jval
deriving Repr

/-- Extract a JSON string. -/
def jstr? : Jval → Option String
  | .str s => some s
  | _ => none

/-- Field lookup in a JSON object. -/
def jlookup (fields : List (String × Jval)) (k : String) : Option Jval :=
  (fields.find? (fun p => p.1 == k)).map (fun p => p.2)

/-- One record as written by `JSON.stringify`: the object spread
`{ ...insertUser, id }` enumerates `username`, `password`, `id` in that
order. -/
def encodeUser (u : User) : Jval :=
  .obj [("username", .str u.username), ("password", .str u.password),
        ("id", .str u.id)]

/-- The snapshot value `persist` writes: the array of all records,
`Array.from(this.users.values())`. -/
def serializeUsers (us : List User) : Jval :=
  .arr (us.map encodeUser)

/-- Read one record back from a JSON value (`JSON.parse(raw) as User[]`,
element-wise): succeeds exactly when the object carries the three string
fields of a Record. -/
def decodeUser (j : Jval) : Option User :=
  match j with
  | .obj fs =>
    match jlookup fs "id", jlookup fs "username", jlookup fs "password" with
    | some ji, some jn, some jp =>
      match jstr? ji, jstr? jn, jstr? jp with
      | some i, some n, some p =>
        some { username := n, password := p, id := i }
      | _, _, _ => none
    | _, _, _ => none
  | _ => none

/-- Read each element of the parsed array as a Record. -/
def decodeUserList : List Jval → Option (List User)
  | [] => some []
  | x :: xs =>
    match decodeUser x, decodeUserList xs with
    | some u, some us => some (u :: us)
    | _, _ => none

/-- The snapshot value "parses as a sequence of Records". -/
def decodeUsers (j : Jval) : Option (List User) :=
  match j with
  | .arr xs => decodeUserList xs
  | _ => none

/-! ### MemStorage — the volatile store -/

/-- `MemStorage.getUser`. -/
def MemStorage.getUser (m : Store) (id : String) : Option User :=
  mget m id

/-- `MemStorage.getUserByUsername`: first match in iteration order. -/
def MemStorage.getUserByUsername (m : Store) (n : String) : Option User :=
  (mvalues m).find? (fun u => u.username == n)

/-- `MemStorage.createUser`: build `{ ...insertUser, id }` for the
generated `id`, store it, return it. -/
def MemStorage.createUser (id : String) (iu : InsertUser) (m : Store) :
    User × Store :=
  let u := mkUser iu id
  (u, mset m id u)

/-- `MemStorage.updateUser`: absent key is a no-op returning `undefined`;
otherwise merge the patch over the existing record, re-store, return it. -/
def MemStorage.updateUser (id : String) (p : Patch) (m : Store) :
    Option User × Store :=
  match mget m id with
  | none => (none, m)
  | some existing =>
    let updated := mergePatch existing p
    (some updated, mset m id updated)

/-- `MemStorage.deleteUser`: `Map.delete` returns whether the key was
present and removes it. -/
def MemStorage.deleteUser (id : String) (m : Store) : Bool × Store :=
  ((mget m id).isSome, mdelete m id)

/-- `MemStorage.listUsers`. -/
def MemStorage.listUsers (m : Store) : List User :=
  mvalues m

/-! ### FileStorage — the durable store -/

/-- The durable store's state: the in-memory collection and the snapshot
file, `none` when the file does not exist (the not-found condition). -/
structure FS where
  users : Store
  disk : Option Jval
deriving Repr

/-- The single fault the model injects: the snapshot write rejecting. -/
inductive StorageFault where
  | persistFailed
deriving DecidableEq, Repr

/-- `FileStorage.persist`: serialize the entire current collection and
replace the file contents. -/
def FS.persistApply (s : FS) : FS :=
  { s with disk := some (serializeUsers (mvalues s.users)) }

/-- `FileStorage.load` run to quiescence, including the constructor's
catch-and-continue: a missing file (`ENOENT`) persists the current (empty)
collection and clears memory; a file that parses as a record sequence
populates the map keyed by id; any other fault is logged by the
constructor and the store continues with its initial empty collection. -/
def FS.load (s : FS) : FS :=
  match s.disk with
  | none => { users := [], disk := some (serializeUsers (mvalues s.users)) }
  | some j =>
    match decodeUsers j with
    | some arr => { s with users := mkMap arr }
    | none => s

/-- A freshly constructed `FileStorage` over the given file contents,
after readiness. -/
def FS.init (disk : Option Jval) : FS :=
  FS.load { users := [], disk := disk }

/-- `FileStorage.getUser`. -/
def FS.getUser (s : FS) (id : String) : Option User :=
  mget s.users id

/-- `FileStorage.getUserByUsername`. -/
def FS.getUserByUsername (s : FS) (n : String) : Option User :=
  (mvalues s.users).find? (fun u => u.username == n)

/-- `FileStorage.listUsers`. -/
def FS.listUsers (s : FS) : List User :=
  mvalues s.users

/-- `FileStorage.createUser`: mutate memory, then `await this.persist()`;
the result is returned only after the write completes, and a write fault
rejects the call with the memory mutation already applied. -/
def FS.createUser (persistOk : Bool) (id : String) (iu : InsertUser)
    (s : FS) : Except StorageFault User × FS :=
  let u := mkUser iu id
  let s1 : FS := { s with users := mset s.users id u }
  if persistOk then (.ok u, s1.persistApply)
  else (.error .persistFailed, s1)

/-- `FileStorage.updateUser`: absent key returns `undefined` without
touching memory or disk; otherwise merge, re-store, persist, return. -/
def FS.updateUser (persistOk : Bool) (id : String) (p : Patch) (s : FS) :
    Except StorageFault (Option User) × FS :=
  match mget s.users id with
  | none => (.ok none, s)
  | some existing =>
    let updated := mergePatch existing p
    let s1 : FS := { s with users := mset s.users id updated }
    if persistOk then (.ok (some updated), s1.persistApply)
    else (.error .persistFailed, s1)

/-- `FileStorage.deleteUser`: delete from memory; persist only when
something was removed (`if (removed) await this.persist()`). -/
def FS.deleteUser (persistOk : Bool) (id : String) (s : FS) :
    Except StorageFault Bool × FS :=
  let removed := (mget s.users id).isSome
  let s1 : FS := { s with users := mdelete s.users id }
  if removed then
    if persistOk then (.ok true, s1.persistApply)
    else (.error .persistFailed, s1)
  else (.ok false, s1)

/-- The snapshot file is in sync with memory: its contents equal the
serialization of the current in-memory collection. -/
def FS.inSync (s : FS) : Prop :=
  s.disk = some (serializeUsers (mvalues s.users))

/-! ### The operation language shared by the two implementations -/

/-- One call through the `IStorage` interface. A `create` carries the id
that `randomUUID()` produces during that call, so both implementations
observe the same generator. -/
inductive Op where
  | create (id : String) (iu : InsertUser)
  | update (id : String) (p : Patch)
  | delete (id : String)
  | get (id : String)
  | getByUsername (n : String)
  | list
deriving Repr

/-- The observable result of one call. -/
inductive Out where
  | user : User → Out
  | userOpt : Option User → Out
  | bool : Bool → Out
  | users : List User → Out
  | fault : StorageFault → Out
deriving DecidableEq, Repr

/-- Run one call against `MemStorage`. -/
def memStep (o : Op) (m : Store) : Out × Store :=
  match o with
  | .create id iu =>
    let r := MemStorage.createUser id iu m
    (.user r.1, r.2)
  | .update id p =>
    let r := MemStorage.updateUser id p m
    (.userOpt r.1, r.2)
  | .delete id =>
    let r := MemStorage.deleteUser id m
    (.bool r.1, r.2)
  | .get id => (.userOpt (MemStorage.getUser m id), m)
  | .getByUsername n => (.userOpt (MemStorage.getUserByUsername m n), m)
  | .list => (.users (MemStorage.listUsers m), m)

/-- Run one call against `FileStorage` with all disk writes succeeding. -/
def fsStep (o : Op) (s : FS) : Out × FS :=
  match o with
  | .create id iu =>
    let r := FS.createUser true id iu s
    (match r.1 with
     | .ok u => .user u
     | .error e => .fault e, r.2)
  | .update id p =>
    let r := FS.updateUser true id p s
    (match r.1 with
     | .ok u => .userOpt u
     | .error e => .fault e, r.2)
  | .delete id =>
    let r := FS.deleteUser true id s
    (match r.1 with
     | .ok b => .bool b
     | .error e => .fault e, r.2)
  | .get id => (.userOpt (FS.getUser s id), s)
  | .getByUsername n => (.userOpt (FS.getUserByUsername s n), s)
  | .list => (.users (FS.listUsers s), s)

/-- Run a call sequence against `MemStorage`. -/
def memRun (os : List Op) (m : Store) : List Out × Store :=
  match os with
  | [] => ([], m)
  | o :: rest =>
    let r := memStep o m
    let rr := memRun rest r.2
    (r.1 :: rr.1, rr.2)

/-- Run a call sequence against `FileStorage`. -/
def fsRun (os : List Op) (s : FS) : List Out × FS :=
  match os with
  | [] => ([], s)
  | o :: rest =>
    let r := fsStep o s
    let rr := fsRun rest r.2
    (r.1 :: rr.1, rr.2)

/-! ### Invariants of the in-memory collection -/

/-- Every key of the collection equals the `id` field of the record stored
under it (the JS `Map` is always keyed by `u.id`). -/
def KeyedById (m : Store) : Prop := ∀ p ∈ m, p.1 = p.2.id

/-! ### Lemmas about the Map model -/

theorem mget_cons (k' : String) (v' : User) (rest : Store) (k : String) :
    mget ((k', v') :: rest) k = if k' == k then some v' else mget rest k := by
  by_cases h : k' == k <;> simp [mget, List.find?_cons, h]

theorem mget_mset (m : Store) (k : String) (v : User) (i : String) :
    mget (mset m k v) i = if k == i then some v else mget m i := by
  induction m with
  | nil => by_cases h : k == i <;> simp [mset, mget_cons, h, mget]
  | cons hd tl ih =>
    obtain ⟨k', v'⟩ := hd
    by_cases h : k' == k
    · have hk : k' = k := by simpa using h
      subst hk
      by_cases h2 : k' == i <;> simp [mset, mget_cons, h, h2]
    · by_cases h2 : k' == i
      · have hk : k' = i := by simpa using h2
        subst hk
        have : ¬ (k == k') := by
          intro hc
          exact h (by simpa using (by simpa using hc : k = k').symm)
        simp [mset, h, mget_cons, h2, this]
      · simp [mset, h, mget_cons, h2, ih]

theorem mget_mdelete_ne (m : Store) (k i : String) (h : ¬ (k == i)) :
    mget (mdelete m k) i = mget m i := by
  induction m with
  | nil => simp [mdelete]
  | cons hd tl ih =>
    obtain ⟨k', v'⟩ := hd
    by_cases h2 : k' == k
    · have hk : k' = k := by simpa using h2
      subst hk
      simp [mdelete, h2, mget_cons, h]
    · simp [mdelete, h2, mget_cons, ih]

theorem mget_eq_none_iff (m : Store) (k : String) :
    mget m k = none ↔ k ∉ mkeys m := by
  induction m with
  | nil => simp [mget, mkeys]
  | cons hd tl ih =>
    obtain ⟨k', v'⟩ := hd
    by_cases h : k' == k
    · have hk : k' = k := by simpa using h
      subst hk
      simp [mget_cons, h, mkeys]
    · have hk : ¬ k' = k := by simpa using h
      rw [mget_cons, if_neg (by simpa using h), ih]
      have hmk : mkeys ((k', v') :: tl) = k' :: mkeys tl := rfl
      rw [hmk]
      constructor
      · intro hnone hmem
        rcases List.mem_cons.mp hmem with h1 | h1
        · exact hk h1.symm
        · exact hnone h1
      · intro hmem hc
        exact hmem (List.mem_cons.mpr (Or.inr hc))

theorem mdelete_eq_of_none (m : Store) (k : String) (h : mget m k = none) :
    mdelete m k = m := by
  induction m with
  | nil => simp [mdelete]
  | cons hd tl ih =>
    obtain ⟨k', v'⟩ := hd
    by_cases h2 : k' == k
    · simp [mget_cons, h2] at h
    · rw [mget_cons] at h
      simp [h2] at h
      simp [mdelete, h2, ih h]

theorem mget_mdelete_self (m : Store) (k : String)
    (hn : (mkeys m).Nodup) : mget (mdelete m k) k = none := by
  induction m with
  | nil => simp [mdelete, mget]
  | cons hd tl ih =>
    obtain ⟨k', v'⟩ := hd
    simp only [mkeys, List.map_cons, List.nodup_cons] at hn
    by_cases h2 : k' == k
    · have hk : k' = k := by simpa using h2
      subst hk
      simp only [mdelete, h2, if_pos]
      rw [mget_eq_none_iff]
      exact fun hc => hn.1 (by simpa [mkeys] using hc)
    · simp [mdelete, h2, mget_cons, ih hn.2]

theorem mset_eq_append (m : Store) (k : String) (v : User)
    (h : mget m k = none) : mset m k v = m ++ [(k, v)] := by
  induction m with
  | nil => simp [mset]
  | cons hd tl ih =>
    obtain ⟨k', v'⟩ := hd
    by_cases h2 : k' == k
    · simp [mget_cons, h2] at h
    · rw [mget_cons] at h
      simp [h2] at h
      simp [mset, h2, ih h]

theorem mkeys_mset_of_none (m : Store) (k : String) (v : User)
    (h : mget m k = none) : mkeys (mset m k v) = mkeys m ++ [k] := by
  rw [mset_eq_append m k v h]
  simp [mkeys]

theorem mkeys_mset_of_some (m : Store) (k : String) (v : User)
    (h : (mget m k).isSome) : mkeys (mset m k v) = mkeys m := by
  induction m with
  | nil => simp [mget] at h
  | cons hd tl ih =>
    obtain ⟨k', v'⟩ := hd
    by_cases h2 : k' == k
    · have hk : k' = k := by simpa using h2
      subst hk
      simp [mset, h2, mkeys]
    · rw [mget_cons] at h
      simp only [h2, if_neg, Bool.false_eq_true, if_false] at h
      have h3 := ih h
      simp only [mkeys] at h3
      simp [mset, h2, mkeys, h3]

/-! ### Lemmas about `mkMap` (the load-time fold) -/

theorem foldl_mset_mget (arr : List User) (acc : Store) (i : String) :
    mget (arr.foldl (fun m u => mset m u.id u) acc) i =
      (arr.reverse.find? (fun u => u.id == i)).or (mget acc i) := by
  induction arr generalizing acc with
  | nil => simp
  | cons u us ih =>
    rw [List.foldl_cons, ih, List.reverse_cons, List.find?_append]
    by_cases h : u.id == i
    · cases hfind : us.reverse.find? (fun u => u.id == i) <;>
        simp [hfind, List.find?, h, mget_mset, Option.or]
    · cases hfind : us.reverse.find? (fun u => u.id == i) <;>
        simp [hfind, List.find?, h, mget_mset, Option.or]

theorem mget_mkMap (arr : List User) (i : String) :
    mget (mkMap arr) i = arr.reverse.find? (fun u => u.id == i) := by
  rw [mkMap, foldl_mset_mget]
  cases arr.reverse.find? (fun u => u.id == i) <;> simp [mget, Option.or]

theorem keyedById_mset (m : Store) (v : User) (h : KeyedById m) :
    KeyedById (mset m v.id v) := by
  induction m with
  | nil =>
    intro p hp
    simp [mset] at hp
    simp [hp]
  | cons hd tl ih =>
    obtain ⟨k', v'⟩ := hd
    have h' : KeyedById tl := fun p hp => h p (List.mem_cons.mpr (Or.inr hp))
    by_cases h2 : k' == v.id
    · intro p hp
      rw [mset] at hp
      simp only [h2, if_pos] at hp
      rcases List.mem_cons.mp hp with h3 | h3
      · simp [h3]
      · exact h ⟨p.1, p.2⟩ (List.mem_cons.mpr (Or.inr h3))
    · intro p hp
      rw [mset] at hp
      simp only [h2, Bool.false_eq_true, if_false] at hp
      rcases List.mem_cons.mp hp with h3 | h3
      · subst h3
        exact h (k', v') (List.mem_cons.mpr (Or.inl rfl))
      · exact ih h' p h3

theorem keyedById_foldl (arr : List User) (acc : Store)
    (h : KeyedById acc) :
    KeyedById (arr.foldl (fun m u => mset m u.id u) acc) := by
  induction arr generalizing acc with
  | nil => simpa
  | cons u us ih => exact ih (mset acc u.id u) (keyedById_mset acc u h)

theorem keyedById_mkMap (arr : List User) : KeyedById (mkMap arr) := by
  exact keyedById_foldl arr [] (by intro p hp; simp at hp)

theorem nodup_mkeys_mset (m : Store) (k : String) (v : User)
    (h : (mkeys m).Nodup) : (mkeys (mset m k v)).Nodup := by
  cases hg : mget m k with
  | none =>
    rw [mkeys_mset_of_none m k v hg]
    rw [List.nodup_append]
    refine ⟨h, List.nodup_singleton k, ?_⟩
    intro a ha hb
    simp at hb
    subst hb
    exact (mget_eq_none_iff m a).mp hg ha
  | some u =>
    rw [mkeys_mset_of_some m k v (by simp [hg])]
    exact h

theorem nodup_mkeys_foldl (arr : List User) (acc : Store)
    (h : (mkeys acc).Nodup) :
    (mkeys (arr.foldl (fun m u => mset m u.id u) acc)).Nodup := by
  induction arr generalizing acc with
  | nil => simpa
  | cons u us ih => exact ih (mset acc u.id u) (nodup_mkeys_mset acc u.id u h)

theorem nodup_mkeys_mkMap (arr : List User) : (mkeys (mkMap arr)).Nodup := by
  exact nodup_mkeys_foldl arr [] (by simp [mkeys])

theorem mvalues_filter_eq (m : Store) (i : String)
    (hk : KeyedById m) (hn : (mkeys m).Nodup) :
    (mvalues m).filter (fun u => u.id == i) = (mget m i).toList := by
  induction m with
  | nil => simp [mvalues, mget]
  | cons hd tl ih =>
    obtain ⟨k', v'⟩ := hd
    have hkv : k' = v'.id := hk (k', v') (List.mem_cons.mpr (Or.inl rfl))
    have hk' : KeyedById tl := fun p hp => hk p (List.mem_cons.mpr (Or.inr hp))
    have hmk : mkeys ((k', v') :: tl) = k' :: mkeys tl := rfl
    rw [hmk, List.nodup_cons] at hn
    by_cases h2 : k' == i
    · have hki : k' = i := by simpa using h2
      have htl : mget tl i = none := by
        rw [mget_eq_none_iff]
        intro hc
        exact hn.1 (hki ▸ hc)
      have hv : (v'.id == i) = true := by
        rw [← hkv]; exact h2
      rw [mget_cons, if_pos h2]
      show (v' :: mvalues tl).filter (fun u => u.id == i) = [v']
      rw [List.filter_cons, if_pos hv, ih hk' hn.2, htl]
      rfl
    · have hv : ¬ (v'.id == i) = true := by
        rw [← hkv]; exact fun hc => h2 hc
      rw [mget_cons, if_neg (by simpa using h2)]
      show (v' :: mvalues tl).filter (fun u => u.id == i) = (mget tl i).toList
      rw [List.filter_cons, if_neg hv, ih hk' hn.2]

/-! ### Reconstruction: `mkMap` inverts `mvalues` on well-keyed stores -/

theorem foldl_mset_of_disjoint (m : Store) (acc : Store)
    (hk : KeyedById m) (hn : (mkeys m).Nodup)
    (hdisj : ∀ k ∈ mkeys m, k ∉ mkeys acc) :
    (mvalues m).foldl (fun a u => mset a u.id u) acc = acc ++ m := by
  induction m generalizing acc with
  | nil => simp [mvalues]
  | cons hd tl ih =>
    obtain ⟨k, v⟩ := hd
    have hkv : k = v.id := hk (k, v) (List.mem_cons.mpr (Or.inl rfl))
    have hk' : KeyedById tl := fun p hp => hk p (List.mem_cons.mpr (Or.inr hp))
    have hmk : mkeys ((k, v) :: tl) = k :: mkeys tl := rfl
    rw [hmk, List.nodup_cons] at hn
    have hkacc : k ∉ mkeys acc :=
      hdisj k (by rw [hmk]; exact List.mem_cons.mpr (Or.inl rfl))
    have hset : mset acc v.id v = acc ++ [(k, v)] := by
      rw [← hkv]
      exact mset_eq_append acc k v ((mget_eq_none_iff acc k).mpr hkacc)
    have hdisj' : ∀ k' ∈ mkeys tl, k' ∉ mkeys (acc ++ [(k, v)]) := by
      intro k' hk'mem
      have hne : k' ≠ k := fun hc => hn.1 (hc ▸ hk'mem)
      have hmk2 : mkeys (acc ++ [(k, v)]) = mkeys acc ++ [k] := by
        simp [mkeys]
      rw [hmk2]
      intro hc
      rcases List.mem_append.mp hc with h1 | h1
      · exact hdisj k' (by rw [hmk]; exact List.mem_cons.mpr (Or.inr hk'mem)) h1
      · simp at h1
        exact hne h1
    show (v :: mvalues tl).foldl (fun a u => mset a u.id u) acc = acc ++ (k, v) :: tl
    rw [List.foldl_cons, hset, ih (acc ++ [(k, v)]) hk' hn.2 hdisj']
    simp

theorem mkMap_mvalues (m : Store) (hk : KeyedById m)
    (hn : (mkeys m).Nodup) : mkMap (mvalues m) = m := by
  have := foldl_mset_of_disjoint m [] hk hn (by intro k _ hc; simp [mkeys] at hc)
  simpa [mkMap] using this

/-! ### Round-trip of the JSON layer -/

theorem decodeUser_encodeUser (u : User) :
    decodeUser (encodeUser u) = some u := by
  rfl

theorem decodeUserList_map_encodeUser (us : List User) :
    decodeUserList (us.map encodeUser) = some us := by
  induction us with
  | nil => rfl
  | cons u rest ih =>
    simp only [List.map_cons, decodeUserList, decodeUser_encodeUser, ih]

theorem decodeUsers_serializeUsers (us : List User) :
    decodeUsers (serializeUsers us) = some us := by
  simp [decodeUsers, serializeUsers, decodeUserList_map_encodeUser]

theorem fsStep_sim (o : Op) (s : FS) (m : Store) (h : s.users = m) :
    (fsStep o s).1 = (memStep o m).1 ∧ (fsStep o s).2.users = (memStep o m).2 := by
  cases o with
  | create id iu =>
    subst h
    simp [fsStep, memStep, FS.createUser, MemStorage.createUser,
      FS.persistApply]
  | update id p =>
    subst h
    cases hg : mget s.users id <;>
      simp [fsStep, memStep, FS.updateUser, MemStorage.updateUser, hg,
        FS.persistApply]
  | delete id =>
    subst h
    cases hg : mget s.users id <;>
      simp [fsStep, memStep, FS.deleteUser, MemStorage.deleteUser, hg,
        FS.persistApply]
  | get id =>
    subst h
    simp [fsStep, memStep, FS.getUser, MemStorage.getUser]
  | getByUsername n =>
    subst h
    simp [fsStep, memStep, FS.getUserByUsername, MemStorage.getUserByUsername]
  | list =>
    subst h
    simp [fsStep, memStep, FS.listUsers, MemStorage.listUsers]

theorem fsRun_sim (os : List Op) (s : FS) (m : Store) (h : s.users = m) :
    (fsRun os s).1 = (memRun os m).1 ∧ (fsRun os s).2.users = (memRun os m).2 := by
  induction os generalizing s m with
  | nil => simpa [fsRun, memRun]
  | cons o rest ih =>
    have hstep := fsStep_sim o s m h
    have htail := ih (fsStep o s).2 (memStep o m).2 hstep.2
    simp [fsRun, memRun, hstep.1, htail.1, htail.2]

/-! ### Key–id agreement lemmas -/

theorem keyedById_mget (m : Store) (id : String) (u : User)
    (hk : KeyedById m) (h : mget m id = some u) : u.id = id := by
  unfold mget at h
  cases hfind : m.find? (fun p => p.1 == id) with
  | none => rw [hfind] at h; simp at h
  | some pr =>
    rw [hfind] at h
    simp at h
    have hmem := List.mem_of_find?_eq_some hfind
    have hp := List.find?_some hfind
    have hkey := hk pr hmem
    rw [← h, ← hkey]
    simpa using hp

theorem mdelete_mem_subset (m : Store) (k : String) (p : String × User)
    (h : p ∈ mdelete m k) : p ∈ m := by
  induction m with
  | nil => simp [mdelete] at h
  | cons hd tl ih =>
    obtain ⟨k', v'⟩ := hd
    by_cases h2 : k' == k
    · rw [mdelete, if_pos h2] at h
      exact List.mem_cons.mpr (Or.inr h)
    · rw [mdelete, if_neg (by simpa using h2)] at h
      rcases List.mem_cons.mp h with h3 | h3
      · exact List.mem_cons.mpr (Or.inl h3)
      · exact List.mem_cons.mpr (Or.inr (ih h3))

theorem keyedById_mdelete (m : Store) (k : String) (hk : KeyedById m) :
    KeyedById (mdelete m k) :=
  fun p hp => hk p (mdelete_mem_subset m k p hp)

/-! ### The claims -/

/-- C1: For the Durable Store, every successful mutating call
(`createUser`, `updateUser`, `deleteUser`) leaves the snapshot file equal
to the serialization of the current in-memory collection (`FS.inSync`),
and when the snapshot write does not complete successfully no result is
returned to the caller — the call rejects instead (modelled by
`persistOk = false`). -/
theorem C1_mutations_keep_snapshot_in_sync (s : FS) (id : String)
    (iu : InsertUser) (p : Patch) (h : FS.inSync s) :
    (FS.createUser true id iu s).2.inSync ∧
    (FS.updateUser true id p s).2.inSync ∧
    (FS.deleteUser true id s).2.inSync ∧
    (FS.createUser false id iu s).1 = .error .persistFailed ∧
    ((mget s.users id).isSome →
      (FS.updateUser false id p s).1 = .error .persistFailed) ∧
    ((mget s.users id).isSome →
      (FS.deleteUser false id s).1 = .error .persistFailed) := by
  refine ⟨?_, ?_, ?_, ?_, ?_, ?_⟩
  · simp [FS.createUser, FS.inSync, FS.persistApply]
  · cases hg : mget s.users id with
    | none => simpa [FS.updateUser, hg] using h
    | some u => simp [FS.updateUser, hg, FS.inSync, FS.persistApply]
  · cases hg : mget s.users id with
    | none =>
      have hd := mdelete_eq_of_none s.users id hg
      simpa [FS.deleteUser, hg, FS.inSync, hd] using h
    | some u => simp [FS.deleteUser, hg, FS.inSync, FS.persistApply]
  · simp [FS.createUser]
  · intro hs
    cases hg : mget s.users id with
    | none => rw [hg] at hs; simp at hs
    | some u => simp [FS.updateUser, hg]
  · intro hs
    cases hg : mget s.users id with
    | none => rw [hg] at hs; simp at hs
    | some u => simp [FS.deleteUser, hg]

theorem C1_witness :
    FS.inSync (FS.init none) ∧
    (FS.createUser true "i1" ⟨"alice", "h1"⟩ (FS.init none)).2.inSync :=
  ⟨rfl,
   (C1_mutations_keep_snapshot_in_sync (FS.init none) "i1" ⟨"alice", "h1"⟩
      ⟨none, none⟩ rfl).1⟩

/-- C2: For the Durable Store, a failing snapshot write during
`createUser`, `updateUser` (on an existing id) or `deleteUser` (on an
existing id) propagates the fault to the caller — the call rejects — and
the in-memory mutation has already been applied and is not rolled back:
the resulting state carries the mutated collection with the disk
untouched. -/
theorem C2_persist_fault_propagates_after_mutation (s : FS) (id : String)
    (iu : InsertUser) (p : Patch) (ex : User)
    (hg : mget s.users id = some ex) :
    FS.createUser false id iu s =
      (.error .persistFailed,
        { s with users := mset s.users id (mkUser iu id) }) ∧
    FS.updateUser false id p s =
      (.error .persistFailed,
        { s with users := mset s.users id (mergePatch ex p) }) ∧
    FS.deleteUser false id s =
      (.error .persistFailed, { s with users := mdelete s.users id }) ∧
    (FS.createUser false id iu s).2.disk = s.disk ∧
    (FS.updateUser false id p s).2.disk = s.disk ∧
    (FS.deleteUser false id s).2.disk = s.disk := by
  refine ⟨?_, ?_, ?_, ?_, ?_, ?_⟩
  · simp [FS.createUser]
  · simp [FS.updateUser, hg]
  · simp [FS.deleteUser, hg]
  · simp [FS.createUser]
  · simp [FS.updateUser, hg]
  · simp [FS.deleteUser, hg]

theorem C2_witness :
    FS.updateUser false "i1" ⟨some "bob", none⟩
        { users := [("i1", ⟨"alice", "h1", "i1"⟩)], disk := none } =
      (.error .persistFailed,
        { users := [("i1", ⟨"bob", "h1", "i1"⟩)], disk := none }) :=
  (C2_persist_fault_propagates_after_mutation
    { users := [("i1", ⟨"alice", "h1", "i1"⟩)], disk := none }
    "i1" ⟨"alice", "h1"⟩ ⟨some "bob", none⟩ ⟨"alice", "h1", "i1"⟩
    rfl).2.1

/-- C3: Constructing a Durable Store over a missing snapshot file
(the not-found condition) is first-run bootstrap: the load writes an empty
snapshot (an empty JSON array) to create the file and the in-memory
collection is empty, so after readiness `listUsers()` is empty and the
file holds the serialization of the empty collection. -/
theorem C3_bootstrap_missing_file :
    FS.init none = { users := [], disk := some (Jval.arr []) } ∧
    FS.listUsers (FS.init none) = [] ∧
    (FS.init none).disk = some (serializeUsers []) :=
  ⟨rfl, rfl, rfl⟩

/-- C4: Loading a snapshot that parses as a record sequence resolves
duplicate ids last-write-wins by file order: whenever the last record in
file order with id `i` is `u`, after readiness the in-memory collection
maps `i` to `u`, and `listUsers()` contains exactly one record with id
`i`, namely `u`. -/
theorem C4_duplicate_ids_last_write_wins (j : Jval) (arr : List User)
    (i : String) (u : User) (hdec : decodeUsers j = some arr)
    (hlast : arr.reverse.find? (fun r => r.id == i) = some u) :
    mget (FS.init (some j)).users i = some u ∧
    (FS.listUsers (FS.init (some j))).filter (fun r => r.id == i) = [u] := by
  have husers : (FS.init (some j)).users = mkMap arr := by
    simp [FS.init, FS.load, hdec]
  constructor
  · rw [husers, mget_mkMap, hlast]
  · show (mvalues (FS.init (some j)).users).filter (fun r => r.id == i) = [u]
    rw [husers,
      mvalues_filter_eq (mkMap arr) i (keyedById_mkMap arr)
        (nodup_mkeys_mkMap arr),
      mget_mkMap, hlast]
    rfl

theorem C4_witness :
    mget (FS.init (some (serializeUsers
        [⟨"alice", "h1", "i1"⟩, ⟨"bob", "h2", "i1"⟩]))).users "i1" =
      some ⟨"bob", "h2", "i1"⟩ ∧
    (FS.listUsers (FS.init (some (serializeUsers
        [⟨"alice", "h1", "i1"⟩, ⟨"bob", "h2", "i1"⟩])))).filter
        (fun r => r.id == "i1") = [⟨"bob", "h2", "i1"⟩] :=
  C4_duplicate_ids_last_write_wins
    (serializeUsers [⟨"alice", "h1", "i1"⟩, ⟨"bob", "h2", "i1"⟩])
    [⟨"alice", "h1", "i1"⟩, ⟨"bob", "h2", "i1"⟩] "i1" ⟨"bob", "h2", "i1"⟩
    (by rfl) (by rfl)

/-- C5: For both implementations, `updateUser(id, patch)` on a missing id
returns absent with no mutation; on an existing record it merges the
patch over it — present patch fields overwrite, absent ones are
preserved — stores the merged record under the same key, leaves other
keys untouched, and returns the merged record whose `id` equals the
original record's `id`. -/
theorem C5_update_merge_semantics (m : Store) (s : FS) (id : String)
    (p : Patch) (ex : User) :
    (mget m id = none → MemStorage.updateUser id p m = (none, m)) ∧
    (mget m id = some ex →
      MemStorage.updateUser id p m =
        (some (mergePatch ex p), mset m id (mergePatch ex p)) ∧
      (mergePatch ex p).id = ex.id ∧
      (mergePatch ex p).username = p.username?.getD ex.username ∧
      (mergePatch ex p).password = p.password?.getD ex.password ∧
      mget (MemStorage.updateUser id p m).2 id = some (mergePatch ex p) ∧
      (∀ j, ¬ (id == j) →
        mget (MemStorage.updateUser id p m).2 j = mget m j)) ∧
    (mget s.users id = none → FS.updateUser true id p s = (.ok none, s)) ∧
    (mget s.users id = some ex →
      (FS.updateUser true id p s).1 = .ok (some (mergePatch ex p)) ∧
      (FS.updateUser true id p s).2.users = mset s.users id (mergePatch ex p) ∧
      FS.getUser (FS.updateUser true id p s).2 id =
        some (mergePatch ex p)) := by
  refine ⟨?_, ?_, ?_, ?_⟩
  · intro hg
    simp [MemStorage.updateUser, hg]
  · intro hg
    refine ⟨by simp [MemStorage.updateUser, hg], rfl, rfl, rfl, ?_, ?_⟩
    · simp [MemStorage.updateUser, hg, mget_mset]
    · intro j hj
      simp [MemStorage.updateUser, hg, mget_mset, hj]
  · intro hg
    simp [FS.updateUser, hg]
  · intro hg
    refine ⟨by simp [FS.updateUser, hg], ?_, ?_⟩
    · simp [FS.updateUser, hg, FS.persistApply]
    · simp [FS.updateUser, hg, FS.persistApply, FS.getUser, mget_mset]

theorem C5_witness :
    MemStorage.updateUser "i1" ⟨none, some "h2"⟩
        [("i1", ⟨"alice", "h1", "i1"⟩)] =
      (some ⟨"alice", "h2", "i1"⟩, [("i1", ⟨"alice", "h2", "i1"⟩)]) ∧
    MemStorage.updateUser "zz" ⟨none, some "h2"⟩
        ([] : Store) = (none, []) :=
  ⟨((C5_update_merge_semantics [("i1", ⟨"alice", "h1", "i1"⟩)]
      { users := [], disk := none } "i1" ⟨none, some "h2"⟩
      ⟨"alice", "h1", "i1"⟩).2.1 rfl).1,
   (C5_update_merge_semantics ([] : Store) { users := [], disk := none }
      "zz" ⟨none, some "h2"⟩ ⟨"alice", "h1", "i1"⟩).1 rfl⟩

/-- C6: For both implementations, `createUser(fields)` stores the record
`{ ...fields, id }` under the freshly generated id and returns exactly
that record (never absent: the volatile call returns a `User` outright and
the durable call succeeds whenever the snapshot write does); assuming the
generated id is fresh — the guarantee `randomUUID()` provides — it is new
to the collection, and a subsequent `getUser` on the returned id yields
the stored record. -/
theorem C6_create_stores_and_returns (m : Store) (s : FS) (id : String)
    (iu : InsertUser) (hm : mget m id = none)
    (hs : mget s.users id = none) :
    (MemStorage.createUser id iu m).1 = mkUser iu id ∧
    (MemStorage.createUser id iu m).1.id = id ∧
    id ∉ mkeys m ∧
    mkeys (MemStorage.createUser id iu m).2 = mkeys m ++ [id] ∧
    mget (MemStorage.createUser id iu m).2 id = some (mkUser iu id) ∧
    id ∉ mkeys s.users ∧
    (FS.createUser true id iu s).1 = .ok (mkUser iu id) ∧
    FS.getUser (FS.createUser true id iu s).2 id = some (mkUser iu id) := by
  refine ⟨rfl, rfl, (mget_eq_none_iff m id).mp hm, ?_, ?_,
    (mget_eq_none_iff s.users id).mp hs, ?_, ?_⟩
  · exact mkeys_mset_of_none m id (mkUser iu id) hm
  · simp [MemStorage.createUser, mget_mset]
  · simp [FS.createUser]
  · simp [FS.createUser, FS.persistApply, FS.getUser, mget_mset]

theorem C6_witness :
    mget (MemStorage.createUser "i1" ⟨"alice", "h1"⟩ ([] : Store)).2 "i1" =
      some ⟨"alice", "h1", "i1"⟩ ∧
    FS.getUser (FS.createUser true "i1" ⟨"alice", "h1"⟩ (FS.init none)).2
        "i1" = some ⟨"alice", "h1", "i1"⟩ :=
  ⟨(C6_create_stores_and_returns ([] : Store) (FS.init none) "i1"
      ⟨"alice", "h1"⟩ rfl rfl).2.2.2.2.1,
   (C6_create_stores_and_returns ([] : Store) (FS.init none) "i1"
      ⟨"alice", "h1"⟩ rfl rfl).2.2.2.2.2.2.2⟩

/-- C7: For both implementations, `deleteUser(id)` returns true and
removes the record exactly when a record with that id existed, and is a
no-op returning false otherwise; deleting the same id twice makes the
second call return false and leave the collection as it was after the
first call. (The collection's keys are distinct — the JS `Map`
guarantee — taken as a hypothesis on the association-list model.) -/
theorem C7_delete_iff_present (m : Store) (s : FS) (id : String)
    (hm : (mkeys m).Nodup) (hs : (mkeys s.users).Nodup) :
    ((MemStorage.deleteUser id m).1 = true ↔ (mget m id).isSome) ∧
    (mget m id = none → MemStorage.deleteUser id m = (false, m)) ∧
    mget (MemStorage.deleteUser id m).2 id = none ∧
    (∀ j, ¬ (id == j) →
      mget (MemStorage.deleteUser id m).2 j = mget m j) ∧
    MemStorage.deleteUser id (MemStorage.deleteUser id m).2 =
      (false, (MemStorage.deleteUser id m).2) ∧
    (FS.deleteUser true id s).1 = .ok ((mget s.users id).isSome) ∧
    (mget s.users id = none → FS.deleteUser true id s = (.ok false, s)) ∧
    mget (FS.deleteUser true id s).2.users id = none ∧
    FS.deleteUser true id (FS.deleteUser true id s).2 =
      (.ok false, (FS.deleteUser true id s).2) := by
  have hmem : mget (mdelete m id) id = none := mget_mdelete_self m id hm
  have hsdel : mget (mdelete s.users id) id = none :=
    mget_mdelete_self s.users id hs
  refine ⟨by simp [MemStorage.deleteUser], ?_, hmem, ?_, ?_, ?_, ?_, ?_, ?_⟩
  · intro hg
    simp [MemStorage.deleteUser, hg, mdelete_eq_of_none m id hg]
  · intro j hj
    exact mget_mdelete_ne m id j hj
  · simp [MemStorage.deleteUser, hmem, mdelete_eq_of_none (mdelete m id) id hmem]
  · cases hg : mget s.users id <;> simp [FS.deleteUser, hg, FS.persistApply]
  · intro hg
    simp [FS.deleteUser, hg, mdelete_eq_of_none s.users id hg]
  · cases hg : mget s.users id <;>
      simp [FS.deleteUser, hg, FS.persistApply, hsdel,
        mdelete_eq_of_none s.users id]
  · cases hg : mget s.users id with
    | none =>
      have hd := mdelete_eq_of_none s.users id hg
      simp [FS.deleteUser, hg, hd]
    | some u =>
      simp [FS.deleteUser, hg, FS.persistApply, hsdel,
        mdelete_eq_of_none (mdelete s.users id) id hsdel]

theorem C7_witness :
    MemStorage.deleteUser "i1"
        (MemStorage.deleteUser "i1" [("i1", ⟨"alice", "h1", "i1"⟩)]).2 =
      (false, (MemStorage.deleteUser "i1"
        [("i1", ⟨"alice", "h1", "i1"⟩)]).2) ∧
    (MemStorage.deleteUser "i1" [("i1", ⟨"alice", "h1", "i1"⟩)]).1 = true :=
  ⟨(C7_delete_iff_present [("i1", ⟨"alice", "h1", "i1"⟩)]
      { users := [], disk := none } "i1" (by decide) (by decide)).2.2.2.2.1,
   ((C7_delete_iff_present [("i1", ⟨"alice", "h1", "i1"⟩)]
      { users := [], disk := none } "i1" (by decide) (by decide)).1).mpr
      (by decide)⟩

/-- C8: Round-trip: serializing an in-memory collection to the snapshot
format exactly as `persist` does, then reloading the resulting snapshot as
`load` does (parse the record sequence, key each record by its id), yields
the original collection — on-the-nose, hence equal as a set of records.
The hypotheses are the collection invariants the store maintains: keyed by
id, with distinct keys. -/
theorem C8_snapshot_roundtrip (m : Store) (hk : KeyedById m)
    (hn : (mkeys m).Nodup) :
    decodeUsers (serializeUsers (mvalues m)) = some (mvalues m) ∧
    mkMap (mvalues m) = m ∧
    (FS.init (some (serializeUsers (mvalues m)))).users = m := by
  refine ⟨decodeUsers_serializeUsers (mvalues m), mkMap_mvalues m hk hn, ?_⟩
  simp [FS.init, FS.load, decodeUsers_serializeUsers, mkMap_mvalues m hk hn]

theorem C8_witness :
    (FS.init (some (serializeUsers (mvalues
        [("i1", ⟨"alice", "h1", "i1"⟩), ("i2", ⟨"bob", "h2", "i2"⟩)])))).users =
      [("i1", ⟨"alice", "h1", "i1"⟩), ("i2", ⟨"bob", "h2", "i2"⟩)] :=
  (C8_snapshot_roundtrip
    [("i1", ⟨"alice", "h1", "i1"⟩), ("i2", ⟨"bob", "h2", "i2"⟩)]
    (by unfold KeyedById; decide) (by decide)).2.2

/-- C9: Interchangeability: for every sequence of the six operations
starting from the empty store — the Durable Store booting from a missing
file and every disk write succeeding — both implementations return
identical results for every operation and end with identical in-memory
collections (equal as lists, hence as sets); they differ only in the disk
mirroring. -/
theorem C9_mem_file_equivalent (os : List Op) :
    (fsRun os (FS.init none)).1 = (memRun os []).1 ∧
    (fsRun os (FS.init none)).2.users = (memRun os []).2 :=
  fsRun_sim os (FS.init none) [] rfl

/-- C10: In both implementations every operation preserves the invariant
that each key of the in-memory collection equals the `id` field of the
record stored under it: `load` establishes it for any parsed file,
`createUser` inserts under the very id it embeds in the record, and
`updateUser` re-stores the merged record (same id) under the original
key; consequently `getUser(id)` returns either absent or a record whose
`id` equals the argument. -/
theorem C10_keys_equal_ids (m : Store) (s : FS) (arr : List User)
    (id : String) (iu : InsertUser) (p : Patch) (u : User) :
    KeyedById (mkMap arr) ∧
    (KeyedById m → KeyedById (MemStorage.createUser id iu m).2) ∧
    (KeyedById m → KeyedById (MemStorage.updateUser id p m).2) ∧
    (KeyedById m → KeyedById (MemStorage.deleteUser id m).2) ∧
    (KeyedById s.users → KeyedById (FS.createUser true id iu s).2.users) ∧
    (KeyedById s.users → KeyedById (FS.updateUser true id p s).2.users) ∧
    (KeyedById s.users → KeyedById (FS.deleteUser true id s).2.users) ∧
    (KeyedById m → mget m id = some u → u.id = id) := by
  have hcreate : ∀ (m' : Store), KeyedById m' →
      KeyedById (mset m' id (mkUser iu id)) := by
    intro m' h
    exact keyedById_mset m' (mkUser iu id) h
  have hupdate : ∀ (m' : Store), KeyedById m' →
      KeyedById (MemStorage.updateUser id p m').2 := by
    intro m' h
    cases hg : mget m' id with
    | none => simpa [MemStorage.updateUser, hg] using h
    | some ex =>
      have hid : ex.id = id := keyedById_mget m' id ex h hg
      have hmid : (mergePatch ex p).id = id := hid
      simp only [MemStorage.updateUser, hg]
      rw [← hmid]
      exact keyedById_mset m' (mergePatch ex p) h
  refine ⟨keyedById_mkMap arr, ?_, hupdate m, ?_, ?_, ?_, ?_, ?_⟩
  · exact hcreate m
  · intro h
    exact keyedById_mdelete m id h
  · intro h
    simpa [FS.createUser, FS.persistApply] using hcreate s.users h
  · intro h
    cases hg : mget s.users id with
    | none => simpa [FS.updateUser, hg] using h
    | some ex =>
      have h2 := hupdate s.users h
      simp only [MemStorage.updateUser, hg] at h2
      simpa [FS.updateUser, hg, FS.persistApply] using h2
  · intro h
    cases hg : mget s.users id with
    | none =>
      simpa [FS.deleteUser, hg, mdelete_eq_of_none s.users id hg] using h
    | some ex =>
      simpa [FS.deleteUser, hg, FS.persistApply] using
        keyedById_mdelete s.users id h
  · intro h hg
    exact keyedById_mget m id u h hg

theorem C10_witness :
    KeyedById (mkMap [⟨"alice", "h1", "i1"⟩]) ∧
    (⟨"alice", "h1", "i1"⟩ : User).id = "i1" :=
  ⟨(C10_keys_equal_ids [] { users := [], disk := none } [⟨"alice", "h1", "i1"⟩]
      "i1" ⟨"alice", "h1"⟩ ⟨none, none⟩ ⟨"alice", "h1", "i1"⟩).1,
   (C10_keys_equal_ids [("i1", ⟨"alice", "h1", "i1"⟩)]
      { users := [], disk := none } [] "i1" ⟨"alice", "h1"⟩ ⟨none, none⟩
      ⟨"alice", "h1", "i1"⟩).2.2.2.2.2.2.2
      (by unfold KeyedById; decide) (by decide)⟩
